import Mathlib

set_option maxRecDepth 100000

/-!
Verification of the RSS scraper's title-normalization pipeline (utils.py),
feed probe (app.py, RSSScraper.verify_and_extract_titles), scheduler
result collection and statistics (RSSScraper.extract_data), and the sanity
auditor (RSSScraper.run_data_check).

Strings are modelled as lists of Unicode scalar values (Lean `Char`),
matching Python's `str` as a sequence of code points.  Fallible Python
code (statements that can raise) is modelled with `Option`/`Except`.
-/

/-! ## Character classes

The regular expressions in utils.py use Python's Unicode-aware `\w` and
`\s` classes.  `pyIsSpace` encodes the exact Unicode whitespace set used
by CPython (also the set stripped by `str.strip`).  `pyIsWordChar`
encodes `\w` (Unicode alphanumeric or underscore): it is exact on the
Basic Latin and Latin-1 ranges and covers the major letter blocks above
them, the extent exercised by this development.
-/

/-- CPython's Unicode whitespace predicate: the characters matched by the
regex class `\s` and stripped by `str.strip()`. -/
def pyIsSpace (c : Char) : Bool :=
  let n := c.toNat
  (0x09 ≤ n && n ≤ 0x0D) || (0x1C ≤ n && n ≤ 0x1F) || n == 0x20 ||
  n == 0x85 || n == 0xA0 || n == 0x1680 || (0x2000 ≤ n && n ≤ 0x200A) ||
  n == 0x2028 || n == 0x2029 || n == 0x202F || n == 0x205F || n == 0x3000

/-- Unicode alphanumeric code points in the Latin-1 supplement
(U+0080 to U+00FF): the letters ªµº, À–Ö, Ø–ö, ø–ÿ and the numeric
characters ²³¹¼½¾. -/
def latin1HighAlnum (n : Nat) : Bool :=
  n == 0xAA || n == 0xB5 || n == 0xBA ||
  (0xC0 ≤ n && n ≤ 0xD6) || (0xD8 ≤ n && n ≤ 0xF6) || (0xF8 ≤ n && n ≤ 0xFF) ||
  n == 0xB2 || n == 0xB3 || n == 0xB9 || (0xBC ≤ n && n ≤ 0xBE)

/-- Python's regex class `\w` under Unicode semantics: alphanumeric code
points or underscore.  Exact on U+0000 to U+00FF; above that it covers the
major letter blocks (Latin Extended, Greek, Cyrillic, kana, CJK, Hangul). -/
def pyIsWordChar (c : Char) : Bool :=
  let n := c.toNat
  c.isAlphanum || c == '_' || latin1HighAlnum n ||
  (0x100 ≤ n && n ≤ 0x2AF) || (0x386 ≤ n && n ≤ 0x481) ||
  (0x48A ≤ n && n ≤ 0x52F) ||
  (0x3041 ≤ n && n ≤ 0x3096) || (0x30A1 ≤ n && n ≤ 0x30FA) ||
  (0x3400 ≤ n && n ≤ 0x4DBF) || (0x4E00 ≤ n && n ≤ 0x9FFF) ||
  (0xAC00 ≤ n && n ≤ 0xD7A3)

/-- The character class kept by `remove_unwanted_characters`.  The source
regex is `[^\w\s'-“”’&]`; inside the class, `'-“` is a character RANGE
from U+0027 (apostrophe) to U+201C (left curly quote), so the kept set is:
word characters, whitespace, the ampersand U+0026, every code point from
U+0027 through U+201C, and U+201D. -/
def keepChar (c : Char) : Bool :=
  pyIsWordChar c || pyIsSpace c ||
  (0x27 ≤ c.toNat && c.toNat ≤ 0x201C) || c.toNat == 0x201D || c == '&'

/-! ## Stage 1: markup strip (utils.remove_html_tags)

`re.sub(r"<[^>]+>", "", text)`: a match is a `<`, at least one character
that is not `>`, then `>`; scanning is left to right and resumes after
each removed match.  `rhtAux` is that scan as a state machine: state
`none` is outside any candidate tag; state `some buf` means a `<` has
been read and `buf` holds the (reversed) characters read since, none of
which is `>`.  On `>` the candidate is a match exactly when `buf` is
nonempty (the regex needs at least one inner character); at end of input
an unclosed candidate is emitted literally.
-/

def rhtAux : List Char → Option (List Char) → List Char
  | [], none => []
  | [], some buf => '<' :: buf.reverse
  | c :: rest, none =>
    if c = '<' then rhtAux rest (some [])
    else c :: rhtAux rest none
  | c :: rest, some buf =>
    if c = '>' then
      if buf.isEmpty then '<' :: '>' :: rhtAux rest none
      else rhtAux rest none
    else rhtAux rest (some (c :: buf))

/-- utils.remove_html_tags: delete every substring matching `<[^>]+>`,
scanning left to right. -/
def remove_html_tags (l : List Char) : List Char :=
  rhtAux l none

/-! ## Stage 2: encoding repair (utils.fix_encoding_issues)

`text.encode("latin1")` succeeds exactly when every code point is at most
U+00FF, producing those code points as bytes; `bytes.decode("utf-8")` is
CPython's strict UTF-8 decoder (rejects overlong forms, surrogates and
values above U+10FFFF).  On either failure the original text is returned.
-/

/-- Strict UTF-8 decoding as a byte-at-a-time automaton, following the
well-formed byte sequence table of the Unicode standard (the table
CPython's strict `bytes.decode("utf-8")` enforces): `need` is the number
of continuation bytes still expected, `acc` the partial code point
accumulated so far, and `lo`/`hi` bound the next continuation byte (the
first continuation byte of a multi-byte sequence has a narrowed range,
which is exactly what excludes overlong encodings, surrogates and values
above U+10FFFF).  Truncated sequences and out-of-range bytes fail. -/
def utf8Dfa : List Nat → Nat → Nat → Nat → Nat → Option (List Nat)
  | [], 0, _, _, _ => some []
  | [], _ + 1, _, _, _ => none
  | b :: rest, 0, _, _, _ =>
    if b < 0x80 then (utf8Dfa rest 0 0 0 0).map (b :: ·)
    else if 0xC2 ≤ b && b ≤ 0xDF then utf8Dfa rest 1 (b - 0xC0) 0x80 0xBF
    else if b = 0xE0 then utf8Dfa rest 2 0 0xA0 0xBF
    else if 0xE1 ≤ b && b ≤ 0xEC then utf8Dfa rest 2 (b - 0xE0) 0x80 0xBF
    else if b = 0xED then utf8Dfa rest 2 0xD 0x80 0x9F
    else if 0xEE ≤ b && b ≤ 0xEF then utf8Dfa rest 2 (b - 0xE0) 0x80 0xBF
    else if b = 0xF0 then utf8Dfa rest 3 0 0x90 0xBF
    else if 0xF1 ≤ b && b ≤ 0xF3 then utf8Dfa rest 3 (b - 0xF0) 0x80 0xBF
    else if b = 0xF4 then utf8Dfa rest 3 4 0x80 0x8F
    else none
  | b :: rest, n + 1, acc, lo, hi =>
    if lo ≤ b && b ≤ hi then
      if n = 0 then (utf8Dfa rest 0 0 0 0).map ((acc * 0x40 + (b - 0x80)) :: ·)
      else utf8Dfa rest n (acc * 0x40 + (b - 0x80)) 0x80 0xBF
    else none

/-- Strict UTF-8 decoding of a byte sequence into code points, as done by
CPython's `bytes.decode("utf-8")`. -/
def utf8Decode (bs : List Nat) : Option (List Nat) :=
  utf8Dfa bs 0 0 0 0

/-- utils.fix_encoding_issues: reinterpret the string's code points as
Latin-1 bytes and re-decode as UTF-8; on `UnicodeEncodeError` (a code
point above U+00FF) or `UnicodeDecodeError` (the bytes are not valid
UTF-8) return the text unchanged. -/
def fix_encoding_issues (l : List Char) : List Char :=
  if l.all (fun c => c.toNat ≤ 0xFF) then
    match utf8Decode (l.map Char.toNat) with
    | some cps => cps.map Char.ofNat
    | none => l
  else l

/-! ## Stage 3: known-sequence substitution
(utils.replace_problematic_sequences) -/

/-- Python's `str.replace` specialized to the shape used by the source's
substitution table: replace every non-overlapping occurrence of the
three-character pattern `[p1, p2, p3]` by the single character `r`,
scanning left to right (the replacement is not rescanned). -/
def replace3 (p1 p2 p3 r : Char) : List Char → List Char
  | a :: b :: c :: rest =>
    if a = p1 ∧ b = p2 ∧ c = p3 then r :: replace3 p1 p2 p3 r rest
    else a :: replace3 p1 p2 p3 r (b :: c :: rest)
  | l => l

/-- utils.replace_problematic_sequences: substitute the fixed table of
residual mojibake byte patterns by the intended punctuation, in the
table's insertion order. -/
def replace_problematic_sequences (l : List Char) : List Char :=
  replace3 'â' '\x80' '¦' '…'
    (replace3 'â' '\x80' '\x94' '—'
      (replace3 'â' '\x80' '\x93' '–'
        (replace3 'â' '\x80' '\x9d' '”'
          (replace3 'â' '\x80' '\x9c' '“'
            (replace3 'â' '\x80' '\x99' '’' l)))))

/-! ## Stage 4: character filter (utils.remove_unwanted_characters) -/

/-- utils.remove_unwanted_characters: `re.sub(r"[^\w\s'-“”’&]", "", text)`,
i.e. keep exactly the characters satisfying `keepChar`. -/
def remove_unwanted_characters (l : List Char) : List Char :=
  l.filter keepChar

/-! ## Stage 5: whitespace normalization (utils.normalize_whitespace) -/

/-- The scan behind `re.sub(r"\s+", " ", text)`: the flag records whether
the previous character was whitespace (i.e. we are inside a run); the
first whitespace character of each run becomes a single space and the
rest of the run is dropped. -/
def collapseAux : List Char → Bool → List Char
  | [], _ => []
  | c :: rest, inRun =>
    if pyIsSpace c then
      if inRun then collapseAux rest true
      else ' ' :: collapseAux rest true
    else c :: collapseAux rest false

/-- `re.sub(r"\s+", " ", text)`: each maximal run of whitespace
characters becomes a single space. -/
def collapseWs (l : List Char) : List Char :=
  collapseAux l false

/-- Remove trailing whitespace characters (the right half of
Python's `str.strip()`). -/
def dropTrailingWs : List Char → List Char
  | [] => []
  | c :: rest =>
    let r := dropTrailingWs rest
    if r.isEmpty && pyIsSpace c then [] else c :: r

/-- Python's `str.strip()`: remove leading and trailing whitespace. -/
def stripWs (l : List Char) : List Char :=
  dropTrailingWs (l.dropWhile pyIsSpace)

/-- utils.normalize_whitespace: collapse whitespace runs to single spaces,
then strip both ends. -/
def normalize_whitespace (l : List Char) : List Char :=
  stripWs (collapseWs l)

/-! ## The composed pipeline (utils.clean_title) -/

/-- utils.clean_title: the five-stage normalization pipeline, applied in
the source's order. -/
def clean_title (l : List Char) : List Char :=
  normalize_whitespace
    (remove_unwanted_characters
      (replace_problematic_sequences
        (fix_encoding_issues
          (remove_html_tags l))))

example : clean_title "<b>Breaking News:</b> Market <i>rises</i> sharply".toList
    = "Breaking News: Market rises sharply".toList := by decide
example : clean_title "   Multiple    spaces   here   ".toList
    = "Multiple spaces here".toList := by decide
example : clean_title "💰 Economic Outlook 2025".toList
    = "Economic Outlook 2025".toList := by decide
example : clean_title "Tech Update â\x80\x94 AI + Humanity?".toList
    = "Tech Update — AI + Humanity?".toList := by decide
example : clean_title "<p>Economy â\x80\x93 Outlook 2025</p>".toList
    = "Economy – Outlook 2025".toList := by decide
example : clean_title "".toList = "".toList := by decide

/-! ## Specification predicates for the normalizer claims -/

/-- The allow-list as the specification states it: word characters,
whitespace, apostrophe, hyphen, ampersand, or curly quotes. -/
def specAllowedChar (c : Char) : Bool :=
  pyIsWordChar c || pyIsSpace c || c = '\'' || c = '-' || c = '&' ||
  c = '‘' || c = '’' || c = '“' || c = '”'

/-- Does a string exhibit the mis-decoding symptom that
`fix_encoding_issues` targets: every code point fits in one byte, at
least one is in the high (non-ASCII) range, and the resulting byte
sequence parses as UTF-8?  Text that was never mis-decoded does not have
this shape. -/
def mojibakeShape (l : List Char) : Bool :=
  l.all (fun c => c.toNat ≤ 0xFF) && l.any (fun c => 0x80 ≤ c.toNat) &&
  (utf8Decode (l.map Char.toNat)).isSome

/-- No code point in the Latin-1 high band U+0080 to U+00FF — the band
in which every mojibake byte artifact lives.  Clean ASCII text, and
clean text whose non-ASCII characters are genuine (above U+00FF), satisfy
this. -/
def noLatin1High (l : List Char) : Bool :=
  l.all (fun c => c.toNat < 0x80 || 0xFF < c.toNat)

/-- Split a list at its first `>`: the characters strictly before the
first `>` and those strictly after it, or `none` when no `>` occurs. -/
def splitAtGt : List Char → Option (List Char × List Char)
  | [] => none
  | c :: rest =>
    if c = '>' then some ([], rest)
    else
      match splitAtGt rest with
      | some (b, a) => some (c :: b, a)
      | none => none

/-- No substring matches the tag pattern `<[^>]+>`: every `<` either has
no later `>`, or its first later `>` comes immediately after it. -/
def tagFree : List Char → Bool
  | [] => true
  | c :: rest =>
    (if c = '<' then
      match splitAtGt rest with
      | some (b, _) => b.isEmpty
      | none => true
     else true) && tagFree rest

/-- Every whitespace character is a plain space U+0020. -/
def spacesAreSp (l : List Char) : Bool :=
  l.all (fun c => !pyIsSpace c || c = ' ')

/-- No two adjacent whitespace characters. -/
def noAdjSp : List Char → Bool
  | c1 :: c2 :: rest => (!(pyIsSpace c1 && pyIsSpace c2)) && noAdjSp (c2 :: rest)
  | _ => true

/-- The first character, if any, is not whitespace. -/
def headNotSp (l : List Char) : Bool :=
  match l.head? with
  | some c => !pyIsSpace c
  | none => true

/-- The last character, if any, is not whitespace. -/
def lastNotSp (l : List Char) : Bool :=
  match l.getLast? with
  | some c => !pyIsSpace c
  | none => true

/-! ## The feed probe (app.RSSScraper.verify_and_extract_titles)

The probe issues one `requests.get`; a `requests.exceptions
.RequestException` (connection error, timeout, DNS failure) is modelled
by the `networkError` outcome of the call.  A completed HTTP exchange
carries a status code, a `Content-Type` header value, and the result of
`feedparser.parse` on the body.  `feedparser.parse` itself never raises:
a body that is not a parsable feed produces an empty entry list, and each
parsed entry exposes a `title` attribute only when the feed item carried
one — accessing `entry.title` on an entry without a title raises
`AttributeError` (feedparser's `FeedParserDict.__getattr__`), modelled by
`title = none`.  Exceptions other than `RequestException` escape the
method (`Except.error`).
-/

/-- A parsed feed entry: `title` is `some t` when the feed item carried a
title (possibly the empty string), `none` when the attribute is absent. -/
structure Entry where
  title : Option (List Char)
deriving DecidableEq

/-- The observable result of the single `requests.get` call made by the
probe. -/
inductive HttpResult where
  /-- The call raised a `requests.exceptions.RequestException`. -/
  | networkError : HttpResult
  /-- The call returned a response with the given status code,
  `Content-Type` header value, and parsed feed entries. -/
  | response (status : Nat) (contentType : List Char) (entries : List Entry)
deriving DecidableEq

deriving instance DecidableEq for Except

/-- The list comprehension
`[clean_title(entry.title) for entry in sliced if entry.title]`:
evaluated left to right; accessing a missing `title` raises
`AttributeError` (`Except.error`), an empty-string title is skipped, and
every kept raw title is passed through `clean_title`. -/
def extractTitles : List Entry → Except Unit (List (List Char))
  | [] => .ok []
  | e :: rest =>
    match e.title with
    | none => .error ()
    | some t =>
      (extractTitles rest).map (fun ts =>
        if t.isEmpty then ts else clean_title t :: ts)

/-- Does `pat` occur at the very start of the second list? -/
def leadsWith : List Char → List Char → Bool
  | [], _ => true
  | _ :: _, [] => false
  | p :: ps, c :: cs => p = c && leadsWith ps cs

/-- Python's substring test `pat in s`: does `pat` occur contiguously
anywhere in `s`? -/
def containsSub (pat : List Char) : List Char → Bool
  | [] => pat.isEmpty
  | c :: rest => leadsWith pat (c :: rest) || containsSub pat rest

/-- Does the `Content-Type` header contain an `xml` or `rss` marker
substring (`"xml" in content_type or "rss" in content_type`)? -/
def hasFeedMarker (ct : List Char) : Bool :=
  containsSub "xml".toList ct || containsSub "rss".toList ct

/-- app.RSSScraper.verify_and_extract_titles: probe one URL.  A network
failure or any response that is not a status-200, feed-typed document
returns `(url, [])`; otherwise the first `num_titles` entries are sliced
and their titles extracted (which can raise, see `extractTitles`). -/
def verify_and_extract_titles (url : String) (resp : HttpResult)
    (numTitles : Nat := 5) : Except Unit (String × List (List Char)) :=
  match resp with
  | .networkError => .ok (url, [])
  | .response status ct entries =>
    if status = 200 then
      if hasFeedMarker ct then
        (extractTitles (entries.take numTitles)).map (fun ts => (url, ts))
      else .ok (url, [])
    else .ok (url, [])

/-! ## The scheduler's result collection and statistics
(app.RSSScraper.extract_data)

One task per element of `self.urls` is submitted to the pool; the
`as_completed` loop consumes the finished futures in some order that is a
permutation of the submission list.  Each resolved `(url, titles)` pair is
inserted into the result mapping only when `titles` is nonempty, and
`num_valid_urls` counts exactly the insertions.  After the loop the code
computes `(num_valid_urls / len(self.urls)) * 100`, which raises
`ZeroDivisionError` when the URL list is empty.
-/

/-- The per-task results, in completion order: `as_completed` yields one
`(url, titles)` pair per dispatched task.  `probe` abstracts the per-URL
outcome of `verify_and_extract_titles` (its titles list). -/
def resolutions (order : List String) (probe : String → List (List Char)) :
    List (String × List (List Char)) :=
  order.map (fun u => (u, probe u))

/-- The result-mapping construction of the `as_completed` loop: a result
is inserted only when its titles list is nonempty (`if titles:`). -/
def buildMapping (order : List String) (probe : String → List (List Char)) :
    List (String × List (List Char)) :=
  (resolutions order probe).foldl
    (fun m r => if r.2.isEmpty then m else m ++ [r]) []

/-- The valid-URL percentage statistic
`(num_valid_urls / len(self.urls)) * 100`: Python raises
`ZeroDivisionError` when the URL list is empty (`none`); otherwise true
division produces the rational value. -/
def validPercentage (numValid total : Nat) : Option ℚ :=
  if total = 0 then none
  else some ((numValid : ℚ) / (total : ℚ) * 100)

/-- app.RSSScraper.extract_data, for a run whose task completion order is
`order` (a permutation of `urls`): build the result mapping, then compute
the statistics; the percentage statistic raises `ZeroDivisionError`
(`Except.error`) when `urls` is empty. -/
def extract_data (urls order : List String)
    (probe : String → List (List Char)) :
    Except Unit (List (String × List (List Char)) × ℚ) :=
  let m := buildMapping order probe
  match validPercentage m.length urls.length with
  | none => .error ()
  | some p => .ok (m, p)

/-- The per-task results in completion order when the per-URL probe is
fallible, as `verify_and_extract_titles` really is: each dispatched task
resolves either to `(url, titles)` or to a raised exception
(`Except.error`), and `future.result()` will re-raise the latter. -/
def fallibleResolutions (order : List String)
    (probe : String → Except Unit (List (List Char))) :
    List (String × Except Unit (List (List Char))) :=
  order.map (fun u => (u, probe u))

/-- The `as_completed` collection loop of extract_data over fallible
task outcomes: `future.result()` either yields `(url, titles)` — merged
into the accumulator only when `titles` is nonempty (`if titles:`) — or
re-raises the task's exception, which aborts the loop at that point;
the outcomes of the remaining futures are never collected. -/
def collectLoop :
    List (String × Except Unit (List (List Char))) →
    List (String × List (List Char)) →
    Except Unit (List (String × List (List Char)))
  | [], m => .ok m
  | (url, r) :: rest, m =>
    match r with
    | .error e => .error e
    | .ok titles =>
      collectLoop rest (if titles.isEmpty then m else m ++ [(url, titles)])

/-! ## The sanity auditor (app.RSSScraper.run_data_check) -/

/-- One advisory finding of the auditor, mirroring the three warning
sites in run_data_check. -/
inductive Finding where
  /-- `Empty titles found for URL` -/
  | emptyTitles (url : String)
  /-- `Title length issue for URL` (title shorter than 10 characters) -/
  | shortTitle (url : String) (title : List Char)
  /-- `Less than 3 titles found for URL` -/
  | sparseFeed (url : String) (titles : List (List Char))
deriving DecidableEq

/-- app.RSSScraper.run_data_check: for each mapping entry, flag an empty
titles list; otherwise flag every title shorter than 10 characters, then
flag the feed as sparse when it has fewer than 3 titles. -/
def run_data_check (m : List (String × List (List Char))) : List Finding :=
  m.flatMap (fun r =>
    if r.2.isEmpty then [Finding.emptyTitles r.1]
    else
      ((r.2.filter (fun t => t.length < 10)).map (Finding.shortTitle r.1)) ++
      (if r.2.length < 3 then [Finding.sparseFeed r.1 r.2] else []))

example :
    verify_and_extract_titles "u"
      (.response 200 "application/rss+xml".toList
        [⟨some "Title 1".toList⟩, ⟨some "Title 2".toList⟩])
      = .ok ("u", ["Title 1".toList, "Title 2".toList]) := by decide
example :
    verify_and_extract_titles "u" (.response 404 "text/xml".toList []) 5
      = .ok ("u", []) := by decide
example :
    verify_and_extract_titles "u" (.response 200 "text/html".toList []) 5
      = .ok ("u", []) := by decide
example : verify_and_extract_titles "u" .networkError 5 = .ok ("u", []) := by
  decide

/-! ## Claims about the statistics computation -/

/-- C1, counterexample: the claim asserts that a run over an empty URL
set reports the valid-percentage statistic as 0% without faulting; in the
code `(num_valid_urls / len(self.urls)) * 100` raises `ZeroDivisionError`
when `total = 0`, so the computation does not produce the value 0%. -/
theorem c1_counterexample : validPercentage 0 0 ≠ some 0 := by
  simp [validPercentage]

/-- C1, amended: for a run with `total = 0` the valid-percentage
computation raises `ZeroDivisionError` (there is no guard treating the
empty case as 0%), so `extract_data` over an empty URL set faults. -/
theorem c1_amended :
    (∀ v : Nat, validPercentage v 0 = none) ∧
    (∀ probe : String → List (List Char),
      extract_data [] [] probe = .error ()) := by
  constructor
  · intro v; simp [validPercentage]
  · intro probe; rfl

/-! ## Claims about the result mapping (scheduler) -/

theorem buildMapping_inv (rs : List (String × List (List Char)))
    (acc : List (String × List (List Char)))
    (hacc : ∀ p ∈ acc, p.2 ≠ []) :
    ∀ p ∈ rs.foldl (fun m r => if r.2.isEmpty then m else m ++ [r]) acc,
      p.2 ≠ [] := by
  induction rs generalizing acc with
  | nil => simpa using hacc
  | cons r rest ih =>
    simp only [List.foldl_cons]
    by_cases hr : r.2.isEmpty
    · have harm : (if r.2.isEmpty = true then acc else acc ++ [r]) = acc := by
        simp [hr]
      rw [harm]
      exact ih acc hacc
    · have harm : (if r.2.isEmpty = true then acc else acc ++ [r])
          = acc ++ [r] := by simp [hr]
      rw [harm]
      refine ih (acc ++ [r]) ?_
      intro p hp
      rcases List.mem_append.mp hp with h | h
      · exact hacc p h
      · simp only [List.mem_singleton] at h
        subst h
        simpa [List.isEmpty_iff] using hr

/-- C7: only `Valid` outcomes are inserted into the result mapping — an
empty titles list is never stored — so every entry of the mapping built
by the `as_completed` loop carries a nonempty title sequence. -/
theorem c7_mapping_entries_nonempty (order : List String)
    (probe : String → List (List Char)) (url : String)
    (ts : List (List Char)) (h : (url, ts) ∈ buildMapping order probe) :
    ts ≠ [] :=
  buildMapping_inv (resolutions order probe) [] (by simp) (url, ts) h

/-- C7, witness: a run over two URLs where one probe returns no titles
stores only the valid one, and the theorem applies to it. -/
theorem c7_witness :
    ("a", ["Some Headline".toList]) ∈
      buildMapping ["a", "b"]
        (fun u => if u = "a" then ["Some Headline".toList] else []) ∧
    ["Some Headline".toList] ≠ ([] : List (List Char)) := by
  refine ⟨by decide, ?_⟩
  exact c7_mapping_entries_nonempty ["a", "b"]
    (fun u => if u = "a" then ["Some Headline".toList] else [])
    "a" ["Some Headline".toList] (by decide)

theorem collectLoop_ok_of_all_ok :
    ∀ (rs : List (String × Except Unit (List (List Char))))
      (acc : List (String × List (List Char))),
      (∀ p ∈ rs, ∃ ts, p.2 = .ok ts) →
      ∃ m, collectLoop rs acc = .ok m
  | [], acc, _ => ⟨acc, rfl⟩
  | (url, r) :: rest, acc, h => by
    obtain ⟨ts, hts⟩ := h (url, r) (by simp)
    cases r with
    | error e => simp at hts
    | ok titles =>
      rw [collectLoop]
      exact collectLoop_ok_of_all_ok rest _
        (fun p hp => h p (List.mem_cons_of_mem _ hp))

/-- C9, counterexample: the claim quantifies over every per-URL probe
behavior, but the probe can raise (an absent-title entry, see the C2
counterexample).  In this two-URL run the task for "a" raises while "b"
resolves to a valid outcome; `future.result()` re-raises inside the
collection loop, the run aborts without collecting "b" — a URL is
skipped and the run does not complete after every task resolved. -/
theorem c9_counterexample :
    ((fun u => if u = "a" then (.error () : Except Unit (List (List Char)))
        else .ok [['x']]) "b" = .ok [['x']]) ∧
    collectLoop
      (fallibleResolutions ["a", "b"]
        (fun u => if u = "a" then .error () else .ok [['x']])) []
      = .error () := by
  constructor
  · decide
  · decide

/-- C9, amended: for every probe behavior that does not raise, the
scheduler resolves exactly one outcome per element of the input URL list
— the collection loop consumes all of them and succeeds, the resolved
URLs are a permutation of the input (nothing skipped, nothing
duplicated), and for a duplicate-free input each URL is resolved exactly
once.  (When some task's probe raises, the loop instead aborts at the
first raising task in completion order and the remaining outcomes are
never collected, as the counterexample shows.) -/
theorem c9_amended (urls order : List String)
    (probe : String → Except Unit (List (List Char)))
    (hperm : order.Perm urls)
    (hok : ∀ u ∈ urls, ∃ ts, probe u = .ok ts) :
    (∃ m, collectLoop (fallibleResolutions order probe) [] = .ok m) ∧
    ((fallibleResolutions order probe).map Prod.fst).Perm urls ∧
    (fallibleResolutions order probe).length = urls.length ∧
    (urls.Nodup → ∀ u ∈ urls,
      ((fallibleResolutions order probe).map Prod.fst).count u = 1) := by
  have hmap : (fallibleResolutions order probe).map Prod.fst = order := by
    simp [fallibleResolutions, List.map_map, Function.comp_def]
  refine ⟨?_, by rw [hmap]; exact hperm, ?_, ?_⟩
  · refine collectLoop_ok_of_all_ok _ [] ?_
    intro p hp
    obtain ⟨u, hu, rfl⟩ := List.mem_map.mp hp
    exact hok u (hperm.mem_iff.mp hu)
  · simp [fallibleResolutions, hperm.length_eq]
  · intro hnd u hu
    rw [hmap, hperm.count_eq]
    exact List.count_eq_one_of_mem hnd hu

/-- C9, witness: a two-URL run with non-raising probes, completing in
reversed order, collects a mapping and resolves each URL exactly once. -/
theorem c9_witness :
    ((["b", "a"] : List String).Perm ["a", "b"]) ∧
    (∃ m, collectLoop
      (fallibleResolutions ["b", "a"]
        (fun _ => (.ok [['x']] : Except Unit (List (List Char))))) []
      = .ok m) ∧
    ((fallibleResolutions ["b", "a"]
        (fun _ => (.ok [['x']] : Except Unit (List (List Char))))).map
      Prod.fst).Perm ["a", "b"] ∧
    (fallibleResolutions ["b", "a"]
        (fun _ => (.ok [['x']] : Except Unit (List (List Char))))).length
      = 2 ∧
    ((fallibleResolutions ["b", "a"]
        (fun _ => (.ok [['x']] : Except Unit (List (List Char))))).map
      Prod.fst).count "a" = 1 := by
  have hperm : (["b", "a"] : List String).Perm ["a", "b"] := by decide
  have h := c9_amended ["a", "b"] ["b", "a"]
    (fun _ => (.ok [['x']] : Except Unit (List (List Char)))) hperm
    (fun u _ => ⟨[['x']], rfl⟩)
  exact ⟨hperm, h.1, h.2.1, h.2.2.1, h.2.2.2 (by decide) "a" (by decide)⟩

/-! ## Claims about the auditor -/

theorem sparseFeed_mem_iff (m : List (String × List (List Char)))
    (url : String) (ts : List (List Char)) :
    Finding.sparseFeed url ts ∈ run_data_check m ↔
      ((url, ts) ∈ m ∧ ts ≠ [] ∧ ts.length < 3) := by
  unfold run_data_check
  rw [List.mem_flatMap]
  constructor
  · rintro ⟨⟨u, l⟩, hm, hf⟩
    by_cases hl : l.isEmpty
    · simp [hl] at hf
    · simp only [hl, Bool.false_eq_true, if_false] at hf
      rcases List.mem_append.mp hf with h1 | h2
      · obtain ⟨t, _, ht⟩ := List.mem_map.mp h1
        cases ht
      · by_cases h3 : l.length < 3
        · simp only [h3, if_true, List.mem_singleton,
            Finding.sparseFeed.injEq] at h2
          obtain ⟨hu, hts⟩ := h2
          subst hu; subst hts
          exact ⟨hm, by simpa [List.isEmpty_iff] using hl, h3⟩
        · simp [h3] at h2
  · rintro ⟨hm, hne, hlen⟩
    refine ⟨(url, ts), hm, ?_⟩
    have hie : ts.isEmpty = false := by simpa [List.isEmpty_iff] using hne
    simp [hie, hlen]

theorem shortTitle_mem_iff (m : List (String × List (List Char)))
    (url : String) (t : List Char) :
    Finding.shortTitle url t ∈ run_data_check m ↔
      (∃ ts, (url, ts) ∈ m ∧ t ∈ ts ∧ t.length < 10) := by
  unfold run_data_check
  rw [List.mem_flatMap]
  constructor
  · rintro ⟨⟨u, l⟩, hm, hf⟩
    by_cases hl : l.isEmpty
    · simp [hl] at hf
    · simp only [hl, Bool.false_eq_true, if_false] at hf
      rcases List.mem_append.mp hf with h1 | h2
      · obtain ⟨t', ht', heq⟩ := List.mem_map.mp h1
        obtain ⟨ht'10, _⟩ : t'.length < 10 ∧ True := by
          have := List.mem_filter.mp ht'
          exact ⟨by simpa using this.2, trivial⟩
        injection heq with hu hteq
        subst hu; subst hteq
        exact ⟨l, hm, (List.mem_filter.mp ht').1, ht'10⟩
      · by_cases h3 : l.length < 3 <;> simp [h3] at h2
  · rintro ⟨ts, hm, htm, hlen⟩
    refine ⟨(url, ts), hm, ?_⟩
    have hne : ts ≠ [] := by rintro rfl; simp at htm
    have hie : ts.isEmpty = false := by simpa [List.isEmpty_iff] using hne
    simp only [hie, Bool.false_eq_true, if_false]
    refine List.mem_append.mpr (Or.inl ?_)
    exact List.mem_map.mpr ⟨t, List.mem_filter.mpr ⟨htm, by simpa using hlen⟩,
      rfl⟩

/-- C8: for any mapping entry, the auditor flags `SparseFeed` exactly
when the entry has fewer than 3 titles (2 titles trigger it, 3 do not)
and flags `ShortTitle` exactly when a title is shorter than 10 characters
(length 9 triggers it, length 10 does not). -/
theorem c8_auditor_thresholds (m : List (String × List (List Char)))
    (url : String) (ts : List (List Char)) (h : (url, ts) ∈ m) :
    (ts.length = 2 → Finding.sparseFeed url ts ∈ run_data_check m) ∧
    (ts.length = 3 → Finding.sparseFeed url ts ∉ run_data_check m) ∧
    (∀ t ∈ ts, t.length = 9 → Finding.shortTitle url t ∈ run_data_check m) ∧
    (∀ t : List Char, t.length = 10 →
      Finding.shortTitle url t ∉ run_data_check m) := by
  refine ⟨?_, ?_, ?_, ?_⟩
  · intro h2
    exact (sparseFeed_mem_iff m url ts).mpr
      ⟨h, by rintro rfl; simp at h2, by omega⟩
  · intro h3 hmem
    obtain ⟨_, _, hlt⟩ := (sparseFeed_mem_iff m url ts).mp hmem
    omega
  · intro t htm h9
    exact (shortTitle_mem_iff m url t).mpr ⟨ts, h, htm, by omega⟩
  · intro t h10 hmem
    obtain ⟨ts', _, _, hlt⟩ := (shortTitle_mem_iff m url t).mp hmem
    omega

/-- C8, witness: in a concrete mapping a 2-title feed is flagged sparse,
a 3-title feed is not, a 9-character title is flagged short and a
10-character title is not. -/
theorem c8_witness :
    (("a", ["Nine char".toList, "Ten  chars".toList]) ∈
      ([("a", ["Nine char".toList, "Ten  chars".toList])] :
        List (String × List (List Char)))) ∧
    (Finding.sparseFeed "a" ["Nine char".toList, "Ten  chars".toList] ∈
      run_data_check [("a", ["Nine char".toList, "Ten  chars".toList])]) ∧
    (Finding.shortTitle "a" "Nine char".toList ∈
      run_data_check [("a", ["Nine char".toList, "Ten  chars".toList])]) := by
  have h := c8_auditor_thresholds
    [("a", ["Nine char".toList, "Ten  chars".toList])]
    "a" ["Nine char".toList, "Ten  chars".toList] (by simp)
  exact ⟨by simp, h.1 (by decide),
    h.2.2.1 "Nine char".toList (by simp) (by decide)⟩

/-! ## Claims about the probe's failure handling and slicing -/

theorem extractTitles_of_allSome (l : List Entry)
    (h : ∀ e ∈ l, e.title ≠ none) :
    extractTitles l =
      .ok (((l.filterMap Entry.title).filter (fun t => !t.isEmpty)).map
        clean_title) := by
  induction l with
  | nil => rfl
  | cons e rest ih =>
    obtain ⟨t, ht⟩ : ∃ t, e.title = some t := by
      cases hcase : e.title with
      | none => exact absurd hcase (h e (by simp))
      | some t => exact ⟨t, rfl⟩
    have ihr := ih (fun e' he' => h e' (by simp [he']))
    simp only [extractTitles, ht, ihr, Except.map, List.filterMap_cons,
      List.filter_cons]
    by_cases hte : t.isEmpty
    · simp [hte]
    · simp [hte]

/-- C2, counterexample: the claim asserts every per-URL failure mode is
caught locally, including entries whose title field is absent; but for a
status-200 feed-typed response whose first entry has no title attribute,
`entry.title` raises `AttributeError`, which the probe's
`except requests.exceptions.RequestException` clause does not catch, so
the error propagates out of the task. -/
theorem c2_counterexample :
    verify_and_extract_titles "u"
      (.response 200 "application/rss+xml".toList [⟨none⟩]) 5
      = .error () := by decide

/-- C2, amended: network-layer failures, non-200 statuses, non-feed
content types, unparsable bodies (no entries) and present-but-empty
titles are all handled locally and yield the Invalid outcome
`(url, [])` or a successful extraction; only an entry with an absent
title field among the sliced entries makes the probe raise. -/
theorem c2_amended (url : String) (n : Nat) :
    (verify_and_extract_titles url .networkError n = .ok (url, [])) ∧
    (∀ st ct es, st ≠ 200 →
      verify_and_extract_titles url (.response st ct es) n
        = .ok (url, [])) ∧
    (∀ st ct es, hasFeedMarker ct = false →
      verify_and_extract_titles url (.response st ct es) n
        = .ok (url, [])) ∧
    (∀ st ct, verify_and_extract_titles url (.response st ct []) n
        = .ok (url, [])) ∧
    (∀ st ct es, (∀ e ∈ es.take n, e.title ≠ none) →
      ∃ ts, verify_and_extract_titles url (.response st ct es) n
        = .ok (url, ts)) := by
  refine ⟨rfl, ?_, ?_, ?_, ?_⟩
  · intro st ct es hst
    simp [verify_and_extract_titles, hst]
  · intro st ct es hct
    by_cases hst : st = 200
    · simp [verify_and_extract_titles, hst, hct]
    · simp [verify_and_extract_titles, hst]
  · intro st ct
    by_cases hst : st = 200
    · by_cases hct : hasFeedMarker ct <;>
        simp [verify_and_extract_titles, hst, hct, extractTitles,
          Except.map, List.take_nil]
    · simp [verify_and_extract_titles, hst]
  · intro st ct es hall
    by_cases hst : st = 200
    · by_cases hct : hasFeedMarker ct
      · refine ⟨(((es.take n).filterMap Entry.title).filter
          (fun t => !t.isEmpty)).map clean_title, ?_⟩
        simp [verify_and_extract_titles, hst, hct,
          extractTitles_of_allSome (es.take n) hall, Except.map]
      · exact ⟨[], by simp [verify_and_extract_titles, hst, hct]⟩
    · exact ⟨[], by simp [verify_and_extract_titles, hst]⟩

/-- C2, witness: the amended theorem applied at concrete failing
responses — a network error, a 500 status, an HTML content type, an
empty parse and a feed whose sliced entries all carry titles. -/
theorem c2_witness :
    (verify_and_extract_titles "u" .networkError 5 = .ok ("u", [])) ∧
    (verify_and_extract_titles "u"
      (.response 500 "text/xml".toList [⟨some "Hi".toList⟩]) 5
        = .ok ("u", [])) ∧
    (verify_and_extract_titles "u"
      (.response 200 "text/html".toList [⟨some "Hi".toList⟩]) 5
        = .ok ("u", [])) ∧
    (verify_and_extract_titles "u" (.response 200 "text/xml".toList []) 5
        = .ok ("u", [])) ∧
    (∃ ts, verify_and_extract_titles "u"
      (.response 200 "text/xml".toList [⟨some "Hi".toList⟩, ⟨some []⟩]) 5
        = .ok ("u", ts)) := by
  have h1 := (c2_amended "u" 5).1
  have h2 := (c2_amended "u" 5).2.1 500 "text/xml".toList
    [⟨some "Hi".toList⟩] (by decide)
  have h3 := (c2_amended "u" 5).2.2.1 200 "text/html".toList
    [⟨some "Hi".toList⟩] (by decide)
  have h4 := (c2_amended "u" 5).2.2.2.1 200 "text/xml".toList
  have h5 := (c2_amended "u" 5).2.2.2.2 200 "text/xml".toList
    [⟨some "Hi".toList⟩, ⟨some []⟩] (by decide)
  exact ⟨h1, h2, h3, h4, h5⟩

/-- C4, counterexample: the claim asserts an empty-titled entry is
skipped without counting toward the `max_titles` limit, so a feed with
five nonempty-titled entries after an empty-titled one would yield five
titles; the code slices `entries[:num_titles]` before filtering, so this
six-entry feed (five of whose entries have nonempty titles) yields only
four titles. -/
theorem c4_counterexample :
    ((verify_and_extract_titles "u" (.response 200 "text/xml".toList
      [⟨some []⟩, ⟨some "Market Up".toList⟩, ⟨some "Market Down".toList⟩,
       ⟨some "Rates Hold".toList⟩, ⟨some "Oil Falls".toList⟩,
       ⟨some "Gold Rises".toList⟩]) 5).map (fun r => r.2.length)
      = .ok 4) ∧
    ((([⟨some []⟩, ⟨some "Market Up".toList⟩, ⟨some "Market Down".toList⟩,
       ⟨some "Rates Hold".toList⟩, ⟨some "Oil Falls".toList⟩,
       ⟨some "Gold Rises".toList⟩] : List Entry).filter
        (fun e => e.title.getD [] ≠ [])).length = 5) := by
  constructor
  · decide
  · decide

/-- C4, amended: the probe slices the first `max_titles` entries in
document order and only then drops the empty-titled ones among them, so
empty titles do count toward the limit; the extracted list is the
cleaned nonempty titles of the sliced entries and never exceeds
`max_titles`. -/
theorem c4_amended (url : String) (ct : List Char) (es : List Entry)
    (n : Nat) (hct : hasFeedMarker ct = true)
    (hall : ∀ e ∈ es.take n, e.title ≠ none) :
    verify_and_extract_titles url (.response 200 ct es) n
      = .ok (url, (((es.take n).filterMap Entry.title).filter
          (fun t => !t.isEmpty)).map clean_title) ∧
    ((((es.take n).filterMap Entry.title).filter
          (fun t => !t.isEmpty)).map clean_title).length ≤ n := by
  constructor
  · simp [verify_and_extract_titles, hct,
      extractTitles_of_allSome (es.take n) hall, Except.map]
  · calc ((((es.take n).filterMap Entry.title).filter
          (fun t => !t.isEmpty)).map clean_title).length
        = (((es.take n).filterMap Entry.title).filter
          (fun t => !t.isEmpty)).length := List.length_map ..
      _ ≤ ((es.take n).filterMap Entry.title).length :=
          List.length_filter_le ..
      _ ≤ (es.take n).length := List.length_filterMap_le ..
      _ ≤ n := List.length_take_le ..

/-- C4, witness: the amended theorem applied to the six-entry feed whose
first entry has an empty title: four titles are extracted and the bound
holds. -/
theorem c4_witness :
    (verify_and_extract_titles "u" (.response 200 "text/xml".toList
      [⟨some []⟩, ⟨some "Market Up".toList⟩, ⟨some "Market Down".toList⟩,
       ⟨some "Rates Hold".toList⟩, ⟨some "Oil Falls".toList⟩,
       ⟨some "Gold Rises".toList⟩]) 5
      = .ok ("u", ["Market Up".toList, "Market Down".toList,
          "Rates Hold".toList, "Oil Falls".toList])) ∧
    (["Market Up".toList, "Market Down".toList, "Rates Hold".toList,
      "Oil Falls".toList].length ≤ 5) := by
  have h := c4_amended "u" "text/xml".toList
    [⟨some []⟩, ⟨some "Market Up".toList⟩, ⟨some "Market Down".toList⟩,
     ⟨some "Rates Hold".toList⟩, ⟨some "Oil Falls".toList⟩,
     ⟨some "Gold Rises".toList⟩] 5 (by decide) (by decide)
  refine ⟨?_, by decide⟩
  have heq : (((([⟨some []⟩, ⟨some "Market Up".toList⟩,
      ⟨some "Market Down".toList⟩, ⟨some "Rates Hold".toList⟩,
      ⟨some "Oil Falls".toList⟩,
      ⟨some "Gold Rises".toList⟩] : List Entry).take 5).filterMap
        Entry.title).filter (fun t => !t.isEmpty)).map clean_title
      = ["Market Up".toList, "Market Down".toList, "Rates Hold".toList,
         "Oil Falls".toList] := by decide
  rw [h.1, heq]

/-! ## Claims about the normalizer's character allow-list (C3) -/

theorem mem_collapseAux {c : Char} (l : List Char) (b : Bool)
    (h : c ∈ collapseAux l b) :
    c = ' ' ∨ (c ∈ l ∧ pyIsSpace c = false) := by
  induction l generalizing b with
  | nil => simp [collapseAux] at h
  | cons a rest ih =>
    by_cases ha : pyIsSpace a
    · by_cases hb : b
      · simp only [collapseAux, ha, hb, if_true] at h
        rcases ih true h with h' | ⟨h1, h2⟩
        · exact Or.inl h'
        · exact Or.inr ⟨by simp [h1], h2⟩
      · simp only [collapseAux, ha, hb, if_true, Bool.false_eq_true,
          if_false, List.mem_cons] at h
        rcases h with h' | h'
        · exact Or.inl h'
        · rcases ih true h' with h'' | ⟨h1, h2⟩
          · exact Or.inl h''
          · exact Or.inr ⟨by simp [h1], h2⟩
    · simp only [collapseAux, ha, Bool.false_eq_true, if_false,
        List.mem_cons] at h
      rcases h with h' | h'
      · subst h'
        exact Or.inr ⟨by simp, by simpa using ha⟩
      · rcases ih false h' with h'' | ⟨h1, h2⟩
        · exact Or.inl h''
        · exact Or.inr ⟨by simp [h1], h2⟩

theorem dropTrailingWs_eq_append (l : List Char) :
    ∃ t, l = dropTrailingWs l ++ t := by
  induction l with
  | nil => exact ⟨[], rfl⟩
  | cons a rest ih =>
    obtain ⟨t, ht⟩ := ih
    by_cases hc : (dropTrailingWs rest).isEmpty && pyIsSpace a
    · exact ⟨a :: rest, by simp [dropTrailingWs, hc]⟩
    · refine ⟨t, ?_⟩
      simp only [dropTrailingWs, hc, Bool.false_eq_true, if_false]
      simpa using congrArg (a :: ·) ht

theorem mem_dropTrailingWs {c : Char} (l : List Char)
    (h : c ∈ dropTrailingWs l) : c ∈ l := by
  obtain ⟨t, ht⟩ := dropTrailingWs_eq_append l
  rw [ht]
  exact List.mem_append.mpr (Or.inl h)

theorem mem_dropWhileSp {c : Char} (l : List Char)
    (h : c ∈ l.dropWhile pyIsSpace) : c ∈ l := by
  induction l with
  | nil => simp at h
  | cons a rest ih =>
    by_cases ha : pyIsSpace a
    · simp only [List.dropWhile_cons, ha, if_true] at h
      exact List.mem_cons_of_mem a (ih h)
    · simpa [List.dropWhile_cons, ha] using h

theorem mem_normalize_whitespace {c : Char} (l : List Char)
    (h : c ∈ normalize_whitespace l) : c = ' ' ∨ c ∈ l := by
  unfold normalize_whitespace stripWs at h
  exact (mem_collapseAux l false
    (mem_dropWhileSp (collapseWs l) (mem_dropTrailingWs _ h))).imp_right
    And.left

/-- C3, counterexample: the claim's allow-list is word characters,
whitespace, apostrophe, hyphen, ampersand and curly quotes; but the
filter's character class contains the RANGE U+0027 to U+201C, so a plus
sign survives normalization even though it is outside the claimed set. -/
theorem c3_counterexample :
    ('+' ∈ clean_title "a+b".toList) ∧ specAllowedChar '+' = false := by
  constructor
  · decide
  · decide

/-- C3, amended: every character of the normalizer's output belongs to
the character class actually kept by the filter stage — word characters,
whitespace, ampersand, the code-point range U+0027 through U+201C
(which contains apostrophe, hyphen and the claimed curly quotes, but
also much other punctuation), and U+201D. -/
theorem c3_amended (s : List Char) (c : Char) (h : c ∈ clean_title s) :
    keepChar c = true := by
  unfold clean_title at h
  rcases mem_normalize_whitespace _ h with hc | hc
  · subst hc; decide
  · exact List.of_mem_filter hc

/-- C3, witness: the amended theorem applied to a surviving character of
a concrete title. -/
theorem c3_witness :
    ('a' ∈ clean_title "a+b".toList) ∧ keepChar 'a' = true :=
  ⟨by decide, c3_amended "a+b".toList 'a' (by decide)⟩

/-! ## Claims about the encoding-repair stage (C6) -/

theorem utf8Decode_ascii (bs : List Nat) (h : ∀ b ∈ bs, b < 0x80) :
    utf8Decode bs = some bs := by
  induction bs with
  | nil => rfl
  | cons b rest ih =>
    have hb : b < 0x80 := h b (by simp)
    have ihr := ih (fun b' hb' => h b' (by simp [hb']))
    unfold utf8Decode at ihr ⊢
    simp only [utf8Dfa, hb, if_true, ihr]
    rfl

/-- C6: the encoding-repair stage is a no-op on text that was never
mis-decoded, i.e. on any string that does not exhibit the mis-decoding
symptom (all code points in one byte, at least one in the high Latin-1
band, and the bytes valid UTF-8): `fix_encoding_issues` returns such a
string unchanged. -/
theorem c6_fix_encoding_noop (s : List Char)
    (h : mojibakeShape s = false) : fix_encoding_issues s = s := by
  unfold fix_encoding_issues
  by_cases hall : s.all (fun c => c.toNat ≤ 0xFF)
  · rw [if_pos hall]
    cases hdec : utf8Decode (s.map Char.toNat) with
    | none => rfl
    | some cps =>
      show List.map Char.ofNat cps = s
      have hsome : (utf8Decode (s.map Char.toNat)).isSome = true := by
        simp [hdec]
      have hany : s.any (fun c => 0x80 ≤ c.toNat) = false := by
        by_contra hne
        have hmj : mojibakeShape s = true := by
          unfold mojibakeShape
          rw [hall, hsome]
          simp only [Bool.and_true, Bool.true_and]
          simpa using hne
        rw [hmj] at h
        simp at h
      have hascii : ∀ b ∈ s.map Char.toNat, b < 0x80 := by
        intro b hb
        obtain ⟨c, hc, rfl⟩ := List.mem_map.mp hb
        have h80 := List.any_eq_false.mp hany c hc
        simp at h80
        omega
      have hd2 := utf8Decode_ascii (s.map Char.toNat) hascii
      rw [hdec] at hd2
      have hcps : cps = s.map Char.toNat := Option.some.inj hd2
      rw [hcps, List.map_map]
      have hco : (Char.ofNat ∘ Char.toNat) = id := funext Char.ofNat_toNat
      rw [hco, List.map_id]
  · rw [if_neg hall]

/-- C6, witness: a clean title containing a genuine en dash is returned
unchanged by the encoding-repair stage. -/
theorem c6_witness :
    (mojibakeShape "Hello – world".toList = false) ∧
    fix_encoding_issues "Hello – world".toList = "Hello – world".toList :=
  ⟨by decide, c6_fix_encoding_noop "Hello – world".toList (by decide)⟩

/-! ## Claims about idempotence of the normalizer (C5)

The key machinery: on strings with no code point in the Latin-1 high
band, the encoding-repair and substitution stages are the identity; the
output of the pipeline is tag-free, filter-invariant and
whitespace-normal, so a second pass changes nothing.
-/

theorem fix_noop_of_noLatin1High (l : List Char)
    (h : noLatin1High l = true) : fix_encoding_issues l = l := by
  unfold fix_encoding_issues
  by_cases hall : l.all (fun c => c.toNat ≤ 0xFF)
  · rw [if_pos hall]
    have hascii : ∀ b ∈ l.map Char.toNat, b < 0x80 := by
      intro b hb
      obtain ⟨c, hc, rfl⟩ := List.mem_map.mp hb
      have h1 := List.all_eq_true.mp h c hc
      have h2 := List.all_eq_true.mp hall c hc
      simp at h1 h2
      omega
    rw [utf8Decode_ascii _ hascii]
    show List.map Char.ofNat (l.map Char.toNat) = l
    rw [List.map_map]
    have hco : (Char.ofNat ∘ Char.toNat) = id := funext Char.ofNat_toNat
    rw [hco, List.map_id]
  · rw [if_neg hall]

theorem replace3_noop (p1 p2 p3 r : Char) :
    ∀ l : List Char, p1 ∉ l → replace3 p1 p2 p3 r l = l
  | [], _ => rfl
  | [_], _ => rfl
  | [_, _], _ => rfl
  | a :: b :: c :: rest, h => by
    have ha : ¬(a = p1 ∧ b = p2 ∧ c = p3) := by
      rintro ⟨rfl, -, -⟩
      exact h (by simp)
    rw [replace3, if_neg ha,
      replace3_noop p1 p2 p3 r (b :: c :: rest)
        (fun hm => h (List.mem_cons_of_mem a hm))]

theorem replace_noop_of_noLatin1High (l : List Char)
    (h : noLatin1High l = true) : replace_problematic_sequences l = l := by
  have hm : 'â' ∉ l := by
    intro hmem
    have := List.all_eq_true.mp h 'â' hmem
    simp at this
  unfold replace_problematic_sequences
  rw [replace3_noop _ _ _ _ l hm, replace3_noop _ _ _ _ l hm,
    replace3_noop _ _ _ _ l hm, replace3_noop _ _ _ _ l hm,
    replace3_noop _ _ _ _ l hm, replace3_noop _ _ _ _ l hm]

theorem mem_rhtAux {c : Char} :
    ∀ (l : List Char) (st : Option (List Char)), c ∈ rhtAux l st →
      c ∈ l ∨ c = '<' ∨ (∃ buf, st = some buf ∧ c ∈ buf)
  | [], none, h => by simp [rhtAux] at h
  | [], some buf, h => by
    rcases List.mem_cons.mp h with h' | h'
    · exact Or.inr (Or.inl h')
    · exact Or.inr (Or.inr ⟨buf, rfl, List.mem_reverse.mp h'⟩)
  | a :: rest, none, h => by
    by_cases ha : a = '<'
    · rw [rhtAux, if_pos ha] at h
      rcases mem_rhtAux rest (some []) h with h' | h' | ⟨buf, hbuf, hc⟩
      · exact Or.inl (List.mem_cons_of_mem a h')
      · exact Or.inr (Or.inl h')
      · injection hbuf with hbuf'
        subst hbuf'
        simp at hc
    · rw [rhtAux, if_neg ha] at h
      rcases List.mem_cons.mp h with h' | h'
      · exact Or.inl (by simp [h'])
      · rcases mem_rhtAux rest none h' with h'' | h'' | ⟨buf, hbuf, _⟩
        · exact Or.inl (List.mem_cons_of_mem a h'')
        · exact Or.inr (Or.inl h'')
        · cases hbuf
  | a :: rest, some buf, h => by
    by_cases ha : a = '>'
    · by_cases hbuf : buf.isEmpty
      · rw [rhtAux, if_pos ha, if_pos hbuf] at h
        rcases List.mem_cons.mp h with h' | h'
        · exact Or.inr (Or.inl h')
        · rcases List.mem_cons.mp h' with h'' | h''
          · exact Or.inl (by simp [ha, h''])
          · rcases mem_rhtAux rest none h'' with h3 | h3 | ⟨b2, hb2, _⟩
            · exact Or.inl (List.mem_cons_of_mem a h3)
            · exact Or.inr (Or.inl h3)
            · cases hb2
      · rw [rhtAux, if_pos ha, if_neg hbuf] at h
        rcases mem_rhtAux rest none h with h3 | h3 | ⟨b2, hb2, _⟩
        · exact Or.inl (List.mem_cons_of_mem a h3)
        · exact Or.inr (Or.inl h3)
        · cases hb2
    · rw [rhtAux, if_neg ha] at h
      rcases mem_rhtAux rest (some (a :: buf)) h with h3 | h3 | ⟨b2, hb2, hc⟩
      · exact Or.inl (List.mem_cons_of_mem a h3)
      · exact Or.inr (Or.inl h3)
      · injection hb2 with hb2'
        subst hb2'
        rcases List.mem_cons.mp hc with h4 | h4
        · exact Or.inl (by simp [h4])
        · exact Or.inr (Or.inr ⟨buf, rfl, h4⟩)

theorem mem_remove_html_tags {c : Char} (l : List Char)
    (h : c ∈ remove_html_tags l) : c ∈ l ∨ c = '<' := by
  rcases mem_rhtAux l none h with h' | h' | ⟨buf, hbuf, _⟩
  · exact Or.inl h'
  · exact Or.inr h'
  · cases hbuf

theorem noLatin1High_remove_html_tags (l : List Char)
    (h : noLatin1High l = true) :
    noLatin1High (remove_html_tags l) = true := by
  rw [noLatin1High, List.all_eq_true]
  intro c hc
  rcases mem_remove_html_tags l hc with h' | h'
  · exact List.all_eq_true.mp h c h'
  · subst h'
    decide

theorem tagFree_tail {c : Char} {l : List Char}
    (h : tagFree (c :: l) = true) : tagFree l = true := by
  rw [tagFree, Bool.and_eq_true] at h
  exact h.2

theorem splitAtGt_none_iff (l : List Char) :
    splitAtGt l = none ↔ '>' ∉ l := by
  induction l with
  | nil => simp [splitAtGt]
  | cons c rest ih =>
    by_cases hc : c = '>'
    · subst hc
      simp [splitAtGt]
    · simp only [splitAtGt, if_neg hc]
      cases hsp : splitAtGt rest with
      | none =>
        have hni : '>' ∉ rest := ih.mp hsp
        have hcc : ¬('>' = c) := fun e => hc e.symm
        simp [List.mem_cons, hcc, hni]
      | some p =>
        obtain ⟨b, a⟩ := p
        have hin : '>' ∈ rest := by
          by_contra hni
          rw [ih.mpr hni] at hsp
          cases hsp
        simp [List.mem_cons, hin]

theorem splitAtGt_decomp :
    ∀ {l b a : List Char}, splitAtGt l = some (b, a) → l = b ++ '>' :: a := by
  intro l
  induction l with
  | nil => intro b a h; simp [splitAtGt] at h
  | cons c rest ih =>
    intro b a h
    by_cases hc : c = '>'
    · subst hc
      rw [splitAtGt, if_pos rfl] at h
      simp only [Option.some.injEq, Prod.mk.injEq] at h
      rw [← h.1, ← h.2]
      simp
    · simp only [splitAtGt, if_neg hc] at h
      cases hsp : splitAtGt rest with
      | none => rw [hsp] at h; cases h
      | some p =>
        obtain ⟨b', a'⟩ := p
        rw [hsp] at h
        simp only [Option.some.injEq, Prod.mk.injEq] at h
        rw [← h.1, ← h.2, List.cons_append]
        rw [ih hsp]

theorem splitAtGt_append (t : List Char) :
    ∀ {a b0 a0 : List Char}, splitAtGt a = some (b0, a0) →
      splitAtGt (a ++ t) = some (b0, a0 ++ t) := by
  intro a
  induction a with
  | nil => intro b0 a0 h; simp [splitAtGt] at h
  | cons c rest ih =>
    intro b0 a0 h
    by_cases hc : c = '>'
    · subst hc
      rw [splitAtGt, if_pos rfl] at h
      simp only [Option.some.injEq, Prod.mk.injEq] at h
      rw [List.cons_append, splitAtGt, if_pos rfl, ← h.1, ← h.2]
    · simp only [splitAtGt, if_neg hc] at h
      cases hsp : splitAtGt rest with
      | none => rw [hsp] at h; cases h
      | some p =>
        obtain ⟨b', a'⟩ := p
        rw [hsp] at h
        simp only [Option.some.injEq, Prod.mk.injEq] at h
        rw [List.cons_append, splitAtGt]
        simp only [if_neg hc, ih hsp, Option.some.injEq, Prod.mk.injEq]
        exact ⟨by rw [← h.1], by rw [← h.2]⟩

theorem tagFree_of_no_gt : ∀ l : List Char, '>' ∉ l → tagFree l = true
  | [], _ => rfl
  | c :: rest, h => by
    have hr : '>' ∉ rest := fun hm => h (List.mem_cons_of_mem c hm)
    have hsp : splitAtGt rest = none := (splitAtGt_none_iff rest).mpr hr
    rw [tagFree]
    by_cases hc : c = '<'
    · simp [hc, hsp, tagFree_of_no_gt rest hr]
    · simp [hc, tagFree_of_no_gt rest hr]

theorem tagFree_rhtAux : ∀ (l : List Char) (st : Option (List Char)),
    (∀ buf, st = some buf → '>' ∉ buf) → tagFree (rhtAux l st) = true
  | [], none, _ => rfl
  | [], some buf, h => by
    have hb : '>' ∉ buf := h buf rfl
    apply tagFree_of_no_gt
    intro hm
    rcases List.mem_cons.mp hm with h' | h'
    · exact absurd h' (by decide)
    · exact hb (List.mem_reverse.mp h')
  | a :: rest, none, _ => by
    by_cases ha : a = '<'
    · rw [rhtAux, if_pos ha]
      exact tagFree_rhtAux rest (some []) (by
        intro buf hb
        injection hb with hb'
        subst hb'
        simp)
    · rw [rhtAux, if_neg ha, tagFree]
      simp [ha, tagFree_rhtAux rest none (by simp)]
  | a :: rest, some buf, h => by
    by_cases ha : a = '>'
    · by_cases hbuf : buf.isEmpty
      · rw [rhtAux, if_pos ha, if_pos hbuf]
        have hX := tagFree_rhtAux rest none (by simp)
        rw [tagFree, Bool.and_eq_true]
        refine ⟨by simp [splitAtGt], ?_⟩
        rw [tagFree]
        simp [hX]
      · rw [rhtAux, if_pos ha, if_neg hbuf]
        exact tagFree_rhtAux rest none (by simp)
    · rw [rhtAux, if_neg ha]
      refine tagFree_rhtAux rest (some (a :: buf)) ?_
      intro b2 hb2
      injection hb2 with hb2'
      subst hb2'
      intro hm
      rcases List.mem_cons.mp hm with h' | h'
      · exact ha h'.symm
      · exact h buf rfl h'

theorem rhtAux_no_gt : ∀ (l buf : List Char), '>' ∉ l →
    rhtAux l (some buf) = '<' :: (buf.reverse ++ l)
  | [], buf, _ => by simp [rhtAux]
  | c :: rest, buf, h => by
    have hc : ¬(c = '>') := fun e => h (by simp [e])
    rw [rhtAux, if_neg hc,
      rhtAux_no_gt rest (c :: buf) (fun hm => h (List.mem_cons_of_mem c hm))]
    simp

theorem rhtAux_eq_self_of_tagFree :
    ∀ l : List Char, tagFree l = true → rhtAux l none = l
  | [], _ => rfl
  | c :: rest, h => by
    have hrest := tagFree_tail h
    by_cases hc : c = '<'
    · subst hc
      rw [rhtAux, if_pos rfl]
      rw [tagFree, Bool.and_eq_true] at h
      cases hsp : splitAtGt rest with
      | none =>
        have hng := (splitAtGt_none_iff rest).mp hsp
        rw [rhtAux_no_gt rest [] hng]
        simp
      | some p =>
        obtain ⟨b, a⟩ := p
        have hb : b.isEmpty = true := by
          have h1 := h.1
          rw [if_pos rfl, hsp] at h1
          exact h1
        have hbe : b = [] := by simpa using hb
        subst hbe
        have hrq : rest = '>' :: a := by simpa using splitAtGt_decomp hsp
        rw [hrq, rhtAux, if_pos rfl, if_pos (by simp)]
        have hta : tagFree a = true := by
          rw [hrq] at hrest
          exact tagFree_tail hrest
        rw [rhtAux_eq_self_of_tagFree a hta]
    · rw [rhtAux, if_neg hc, rhtAux_eq_self_of_tagFree rest hrest]

/-- remove_html_tags is the identity on tag-free strings. -/
theorem remove_html_tags_eq_self (l : List Char) (h : tagFree l = true) :
    remove_html_tags l = l :=
  rhtAux_eq_self_of_tagFree l h

theorem tagFree_filter (p : Char → Bool) (hp : p '>' = true) :
    ∀ l : List Char, tagFree l = true → tagFree (l.filter p) = true
  | [], _ => rfl
  | c :: rest, h => by
    have hrest := tagFree_tail h
    have ihr := tagFree_filter p hp rest hrest
    by_cases hpc : p c
    · rw [List.filter_cons, if_pos hpc]
      by_cases hc : c = '<'
      · subst hc
        rw [tagFree, Bool.and_eq_true] at h
        rw [tagFree, Bool.and_eq_true]
        refine ⟨?_, ihr⟩
        rw [if_pos rfl]
        have h1 := h.1
        rw [if_pos rfl] at h1
        cases hsp : splitAtGt rest with
        | none =>
          have hng := (splitAtGt_none_iff rest).mp hsp
          have hng2 : '>' ∉ rest.filter p :=
            fun hm => hng (List.mem_of_mem_filter hm)
          rw [(splitAtGt_none_iff _).mpr hng2]
        | some pr =>
          obtain ⟨b, a⟩ := pr
          have hb : b = [] := by
            rw [hsp] at h1
            simpa using h1
          subst hb
          have hrq : rest = '>' :: a := by simpa using splitAtGt_decomp hsp
          rw [hrq, List.filter_cons, if_pos hp]
          simp [splitAtGt]
      · rw [tagFree]
        simp [hc, ihr]
    · rw [List.filter_cons, if_neg hpc]
      exact ihr

theorem tagFree_collapseAux : ∀ (l : List Char) (b : Bool),
    tagFree l = true → tagFree (collapseAux l b) = true
  | [], _, _ => rfl
  | c :: rest, b, h => by
    have hrest := tagFree_tail h
    by_cases hspc : pyIsSpace c
    · rw [collapseAux]
      by_cases hb : b
      · simp only [hspc, if_true, hb]
        exact tagFree_collapseAux rest true hrest
      · simp only [hspc, if_true, hb, Bool.false_eq_true, if_false]
        rw [tagFree]
        simp [tagFree_collapseAux rest true hrest]
    · rw [collapseAux]
      simp only [hspc, Bool.false_eq_true, if_false]
      by_cases hc : c = '<'
      · subst hc
        rw [tagFree, Bool.and_eq_true] at h
        rw [tagFree, Bool.and_eq_true]
        refine ⟨?_, tagFree_collapseAux rest false hrest⟩
        rw [if_pos rfl]
        have h1 := h.1
        rw [if_pos rfl] at h1
        cases hsp2 : splitAtGt rest with
        | none =>
          have hng := (splitAtGt_none_iff rest).mp hsp2
          have hng2 : '>' ∉ collapseAux rest false := by
            intro hm
            rcases mem_collapseAux rest false hm with h' | ⟨h2, _⟩
            · exact absurd h' (by decide)
            · exact hng h2
          rw [(splitAtGt_none_iff _).mpr hng2]
        | some pr =>
          obtain ⟨bb, a⟩ := pr
          have hbb : bb = [] := by
            rw [hsp2] at h1
            simpa using h1
          subst hbb
          have hrq : rest = '>' :: a := by simpa using splitAtGt_decomp hsp2
          rw [hrq, collapseAux]
          have hsg : pyIsSpace '>' = false := by decide
          simp [hsg, splitAtGt]
      · rw [tagFree]
        simp [hc, tagFree_collapseAux rest false hrest]

theorem tagFree_dropWhileSp :
    ∀ l : List Char, tagFree l = true → tagFree (l.dropWhile pyIsSpace) = true
  | [], _ => rfl
  | c :: rest, h => by
    by_cases hc : pyIsSpace c
    · rw [List.dropWhile_cons, if_pos hc]
      exact tagFree_dropWhileSp rest (tagFree_tail h)
    · rw [List.dropWhile_cons, if_neg hc]
      exact h

theorem tagFree_append_left :
    ∀ (a t : List Char), tagFree (a ++ t) = true → tagFree a = true
  | [], _, _ => rfl
  | c :: resta, t, h => by
    rw [List.cons_append, tagFree, Bool.and_eq_true] at h
    rw [tagFree, Bool.and_eq_true]
    refine ⟨?_, tagFree_append_left resta t h.2⟩
    by_cases hc : c = '<'
    · rw [if_pos hc]
      have h1 := h.1
      rw [if_pos hc] at h1
      cases hsp : splitAtGt resta with
      | none => rfl
      | some pr =>
        obtain ⟨b, a0⟩ := pr
        rw [splitAtGt_append t hsp] at h1
        simpa using h1
    · rw [if_neg hc]

theorem tagFree_dropTrailingWs (l : List Char) (h : tagFree l = true) :
    tagFree (dropTrailingWs l) = true := by
  obtain ⟨t, ht⟩ := dropTrailingWs_eq_append l
  exact tagFree_append_left _ t (ht ▸ h)

theorem headNotSp_cons (c : Char) (l : List Char) :
    headNotSp (c :: l) = !pyIsSpace c := rfl

theorem spacesAreSp_tail {c : Char} {l : List Char}
    (h : spacesAreSp (c :: l) = true) : spacesAreSp l = true := by
  rw [spacesAreSp, List.all_cons, Bool.and_eq_true] at h
  exact h.2

theorem noAdjSp_tail {c : Char} {l : List Char}
    (h : noAdjSp (c :: l) = true) : noAdjSp l = true := by
  cases l with
  | nil => rfl
  | cons c2 rest =>
    rw [noAdjSp, Bool.and_eq_true] at h
    exact h.2

theorem collapseAux_true_eq_false (l : List Char)
    (h : headNotSp l = true) : collapseAux l true = collapseAux l false := by
  cases l with
  | nil => rfl
  | cons c rest =>
    rw [headNotSp_cons] at h
    have hc : pyIsSpace c = false := by simpa using h
    rw [collapseAux, collapseAux]
    simp [hc]

theorem collapseAux_eq_self : ∀ l : List Char,
    spacesAreSp l = true → noAdjSp l = true → collapseAux l false = l
  | [], _, _ => rfl
  | c :: rest, hsp, hadj => by
    have hsp' := spacesAreSp_tail hsp
    have hadj' := noAdjSp_tail hadj
    by_cases hc : pyIsSpace c
    · have hce : c = ' ' := by
        rw [spacesAreSp, List.all_cons, Bool.and_eq_true] at hsp
        have := hsp.1
        simp [hc] at this
        exact this
      have hhead : headNotSp rest = true := by
        cases rest with
        | nil => rfl
        | cons c2 rest2 =>
          rw [noAdjSp, Bool.and_eq_true] at hadj
          have h1 := hadj.1
          rw [headNotSp_cons]
          by_cases hc2 : pyIsSpace c2
          · rw [hc, hc2] at h1
            simp at h1
          · simp [hc2]
      rw [collapseAux]
      simp only [hc, if_true, Bool.false_eq_true, if_false]
      rw [collapseAux_true_eq_false rest hhead,
        collapseAux_eq_self rest hsp' hadj', hce]
    · rw [collapseAux]
      simp only [hc, Bool.false_eq_true, if_false]
      rw [collapseAux_eq_self rest hsp' hadj']

theorem headNotSp_collapseAux_true :
    ∀ l : List Char, headNotSp (collapseAux l true) = true
  | [] => rfl
  | c :: rest => by
    by_cases hc : pyIsSpace c
    · rw [collapseAux]
      simp only [hc, if_true]
      exact headNotSp_collapseAux_true rest
    · rw [collapseAux]
      simp only [hc, Bool.false_eq_true, if_false]
      rw [headNotSp_cons]
      simp [hc]

theorem spacesAreSp_sub {l' l : List Char}
    (hsub : ∀ c ∈ l', c = ' ' ∨ c ∈ l) (h : spacesAreSp l = true) :
    spacesAreSp l' = true := by
  rw [spacesAreSp, List.all_eq_true]
  intro c hc
  rcases hsub c hc with h' | h'
  · subst h'; decide
  · exact List.all_eq_true.mp h c h'

theorem spacesAreSp_collapseAux (l : List Char) (b : Bool) :
    spacesAreSp (collapseAux l b) = true := by
  rw [spacesAreSp, List.all_eq_true]
  intro c hc
  rcases mem_collapseAux l b hc with h' | ⟨_, h2⟩
  · subst h'; decide
  · simp [h2]

theorem noAdjSp_cons (c : Char) (l : List Char)
    (h1 : pyIsSpace c = false ∨ headNotSp l = true)
    (h2 : noAdjSp l = true) : noAdjSp (c :: l) = true := by
  cases l with
  | nil => rfl
  | cons c2 rest =>
    rw [noAdjSp, Bool.and_eq_true]
    refine ⟨?_, h2⟩
    rcases h1 with h' | h'
    · simp [h']
    · rw [headNotSp_cons] at h'
      have : pyIsSpace c2 = false := by simpa using h'
      simp [this]

theorem noAdjSp_collapseAux :
    ∀ (l : List Char) (b : Bool), noAdjSp (collapseAux l b) = true
  | [], _ => rfl
  | c :: rest, b => by
    by_cases hc : pyIsSpace c
    · by_cases hb : b
      · rw [collapseAux]
        simp only [hc, if_true, hb]
        exact noAdjSp_collapseAux rest true
      · rw [collapseAux]
        simp only [hc, if_true, hb, Bool.false_eq_true, if_false]
        exact noAdjSp_cons ' ' _ (Or.inr (headNotSp_collapseAux_true rest))
          (noAdjSp_collapseAux rest true)
    · rw [collapseAux]
      simp only [hc, Bool.false_eq_true, if_false]
      exact noAdjSp_cons c _ (Or.inl (by simpa using hc))
        (noAdjSp_collapseAux rest false)

theorem noAdjSp_dropWhileSp :
    ∀ l : List Char, noAdjSp l = true → noAdjSp (l.dropWhile pyIsSpace) = true
  | [], _ => rfl
  | c :: rest, h => by
    by_cases hc : pyIsSpace c
    · rw [List.dropWhile_cons, if_pos hc]
      exact noAdjSp_dropWhileSp rest (noAdjSp_tail h)
    · rw [List.dropWhile_cons, if_neg hc]
      exact h

theorem noAdjSp_append_left :
    ∀ (a t : List Char), noAdjSp (a ++ t) = true → noAdjSp a = true
  | [], _, _ => rfl
  | [_], _, _ => rfl
  | c1 :: c2 :: resta, t, h => by
    rw [List.cons_append, List.cons_append, noAdjSp,
      Bool.and_eq_true] at h
    rw [noAdjSp, Bool.and_eq_true]
    refine ⟨h.1, ?_⟩
    have := noAdjSp_append_left (c2 :: resta) t
    rw [List.cons_append] at this
    exact this h.2

theorem headNotSp_dropWhileSp :
    ∀ l : List Char, headNotSp (l.dropWhile pyIsSpace) = true
  | [] => rfl
  | c :: rest => by
    by_cases hc : pyIsSpace c
    · rw [List.dropWhile_cons, if_pos hc]
      exact headNotSp_dropWhileSp rest
    · rw [List.dropWhile_cons, if_neg hc, headNotSp_cons]
      simp [hc]

theorem headNotSp_dropTrailingWs (l : List Char)
    (h : headNotSp l = true) : headNotSp (dropTrailingWs l) = true := by
  cases l with
  | nil => rfl
  | cons c rest =>
    rw [dropTrailingWs]
    by_cases hcond : (dropTrailingWs rest).isEmpty && pyIsSpace c
    · simp only [hcond, if_true]
      rfl
    · simp only [hcond, Bool.false_eq_true, if_false]
      rw [headNotSp_cons]
      rw [headNotSp_cons] at h
      exact h

theorem lastNotSp_cons_cons (c1 c2 : Char) (l : List Char) :
    lastNotSp (c1 :: c2 :: l) = lastNotSp (c2 :: l) := by
  rw [lastNotSp, lastNotSp, List.getLast?_cons_cons]

theorem lastNotSp_dropTrailingWs : ∀ l : List Char,
    lastNotSp (dropTrailingWs l) = true
  | [] => rfl
  | c :: rest => by
    have ih := lastNotSp_dropTrailingWs rest
    rw [dropTrailingWs]
    by_cases hemp : (dropTrailingWs rest).isEmpty
    · by_cases hc : pyIsSpace c
      · simp only [hemp, hc, Bool.and_self, if_true]
        rfl
      · have hcond : ((dropTrailingWs rest).isEmpty && pyIsSpace c) = false := by
          simp [hc]
        simp only [hcond, Bool.false_eq_true, if_false]
        have hnil : dropTrailingWs rest = [] := by simpa using hemp
        rw [hnil, lastNotSp]
        simp [hc]
    · have hcond : ((dropTrailingWs rest).isEmpty && pyIsSpace c) = false := by
        simp [hemp]
      simp only [hcond, Bool.false_eq_true, if_false]
      obtain ⟨c2, rest2, hr⟩ : ∃ c2 rest2, dropTrailingWs rest = c2 :: rest2 := by
        cases hdt : dropTrailingWs rest with
        | nil => rw [hdt] at hemp; simp at hemp
        | cons c2 rest2 => exact ⟨c2, rest2, rfl⟩
      rw [hr, lastNotSp_cons_cons, ← hr]
      exact ih

theorem dropWhileSp_eq_self (l : List Char) (h : headNotSp l = true) :
    l.dropWhile pyIsSpace = l := by
  cases l with
  | nil => rfl
  | cons c rest =>
    rw [headNotSp_cons] at h
    rw [List.dropWhile_cons, if_neg (by simpa using h)]

theorem dropTrailingWs_eq_self : ∀ l : List Char,
    lastNotSp l = true → dropTrailingWs l = l
  | [], _ => rfl
  | c :: rest, h => by
    cases rest with
    | nil =>
      rw [lastNotSp] at h
      simp only [List.getLast?_singleton] at h
      rw [dropTrailingWs]
      simp only [dropTrailingWs, List.isEmpty_nil, Bool.true_and]
      simp only [Bool.not_eq_true'] at h
      simp [h]
    | cons c2 rest2 =>
      rw [lastNotSp_cons_cons] at h
      have ih := dropTrailingWs_eq_self (c2 :: rest2) h
      rw [dropTrailingWs, ih]
      simp

theorem wsNormal_normalize_whitespace (l : List Char) :
    spacesAreSp (normalize_whitespace l) = true ∧
    noAdjSp (normalize_whitespace l) = true ∧
    headNotSp (normalize_whitespace l) = true ∧
    lastNotSp (normalize_whitespace l) = true := by
  unfold normalize_whitespace stripWs collapseWs
  refine ⟨?_, ?_, ?_, ?_⟩
  · refine spacesAreSp_sub ?_ (spacesAreSp_collapseAux l false)
    intro c hc
    exact Or.inr (mem_dropWhileSp _ (mem_dropTrailingWs _ hc))
  · obtain ⟨t, ht⟩ :=
      dropTrailingWs_eq_append ((collapseAux l false).dropWhile pyIsSpace)
    refine noAdjSp_append_left _ t ?_
    rw [← ht]
    exact noAdjSp_dropWhileSp _ (noAdjSp_collapseAux l false)
  · exact headNotSp_dropTrailingWs _ (headNotSp_dropWhileSp _)
  · exact lastNotSp_dropTrailingWs _

theorem normalize_whitespace_eq_self (l : List Char)
    (h1 : spacesAreSp l = true) (h2 : noAdjSp l = true)
    (h3 : headNotSp l = true) (h4 : lastNotSp l = true) :
    normalize_whitespace l = l := by
  unfold normalize_whitespace stripWs collapseWs
  rw [collapseAux_eq_self l h1 h2, dropWhileSp_eq_self l h3,
    dropTrailingWs_eq_self l h4]

/-- C5, counterexample: idempotence fails.  The input â💰‹0x80›‹0x99›
passes the first normalization unrepaired (the emoji blocks the Latin-1
re-encoding and splits the substitution pattern) but the filter then
deletes the emoji, leaving the mojibake artifact â‹0x80›‹0x99›
contiguous; the second pass re-decodes it to a curly quote, so
normalize(normalize(s)) differs from normalize(s). -/
theorem c5_counterexample :
    clean_title (clean_title ['â', '💰', '\x80', '\x99'])
      ≠ clean_title ['â', '💰', '\x80', '\x99'] := by decide

/-- C5, amended: the normalizer is idempotent on every input with no
code point in the Latin-1 high band U+0080 to U+00FF — the band every
mojibake byte artifact lives in.  (The counterexample shows idempotence
fails in general: filtering can make a broken-up mojibake artifact
contiguous, which the second pass then re-decodes.)  In particular an
already-clean title, ASCII or with genuine non-ASCII punctuation, passes
through a second normalization unchanged. -/
theorem c5_amended (s : List Char) (h : noLatin1High s = true) :
    clean_title (clean_title s) = clean_title s := by
  have hrem : noLatin1High (remove_html_tags s) = true :=
    noLatin1High_remove_html_tags s h
  have ht_eq : clean_title s
      = normalize_whitespace ((remove_html_tags s).filter keepChar) := by
    unfold clean_title remove_unwanted_characters
    rw [fix_noop_of_noLatin1High _ hrem, replace_noop_of_noLatin1High _ hrem]
  rw [ht_eq]
  set x := (remove_html_tags s).filter keepChar with hx
  have hmem : ∀ c ∈ normalize_whitespace x, c = ' ' ∨ c ∈ x :=
    fun c hc => mem_normalize_whitespace x hc
  have hNoL : noLatin1High (normalize_whitespace x) = true := by
    rw [noLatin1High, List.all_eq_true]
    intro c hc
    rcases hmem c hc with h' | h'
    · subst h'; decide
    · have hcr : c ∈ remove_html_tags s := List.mem_of_mem_filter h'
      exact List.all_eq_true.mp hrem c hcr
  have hkeep : ∀ c ∈ normalize_whitespace x, keepChar c = true := by
    intro c hc
    rcases hmem c hc with h' | h'
    · subst h'; decide
    · exact List.of_mem_filter h'
  have htf : tagFree (normalize_whitespace x) = true := by
    have h1 : tagFree (remove_html_tags s) = true :=
      tagFree_rhtAux s none (by simp)
    have h2 : tagFree x = true :=
      tagFree_filter keepChar (by decide) _ h1
    unfold normalize_whitespace stripWs collapseWs
    exact tagFree_dropTrailingWs _
      (tagFree_dropWhileSp _ (tagFree_collapseAux _ false h2))
  obtain ⟨hw1, hw2, hw3, hw4⟩ := wsNormal_normalize_whitespace x
  unfold clean_title
  rw [remove_html_tags_eq_self _ htf, fix_noop_of_noLatin1High _ hNoL,
    replace_noop_of_noLatin1High _ hNoL]
  unfold remove_unwanted_characters
  rw [List.filter_eq_self.mpr hkeep]
  exact normalize_whitespace_eq_self _ hw1 hw2 hw3 hw4

/-- C5, witness: the amended theorem applied to a concrete title with
markup, irregular spacing and a genuine em dash. -/
theorem c5_witness :
    (noLatin1High " <b>Hi</b>  there — ok ".toList = true) ∧
    clean_title (clean_title " <b>Hi</b>  there — ok ".toList)
      = clean_title " <b>Hi</b>  there — ok ".toList :=
  ⟨by decide, c5_amended " <b>Hi</b>  there — ok ".toList (by decide)⟩

/-! ## Claims about the probe's status handling -/

/-- C10: the probe treats only HTTP status exactly 200 as potentially
valid; any other status code (including other 2xx codes) yields the
`Invalid` outcome, the URL paired with an empty titles list. -/
theorem c10_only_status_200 (url : String) (st : Nat) (ct : List Char)
    (entries : List Entry) (n : Nat) (h : st ≠ 200) :
    verify_and_extract_titles url (.response st ct entries) n
      = .ok (url, []) := by
  simp [verify_and_extract_titles, h]

/-- C10, witness: status 201 with a well-formed feed body still yields
the Invalid outcome. -/
theorem c10_witness :
    (201 ≠ 200) ∧
    verify_and_extract_titles "u"
      (.response 201 "application/rss+xml".toList [⟨some "Title 1".toList⟩]) 5
      = .ok ("u", []) :=
  ⟨by decide,
   c10_only_status_200 "u" 201 "application/rss+xml".toList
     [⟨some "Title 1".toList⟩] 5 (by decide)⟩
